import Mathlib

/-!
Verification of the `pwall` PDF object encoder (package `pdf`).

The Go source is shallowly embedded as follows.

* `Err` models Go `error` values observable here: an opaque underlying-writer
  failure (`ioErr`) and the `io.EOF` sentinel that `io.CopyN` returns when a
  stream's source runs short (the spec's `TruncatedStream`).
* The underlying `io.Writer` passed to `EncodeObject` is modelled by `Base`:
  the bytes that reached it (`out`, as a `String`, one `Char` per byte/rune),
  a count of physical write attempts (`cnt`), and an `oracle` deciding which
  attempt fails.  Physical writes are all-or-nothing and each write call
  consults the oracle once; the `bufio.Writer` layer is modelled as a
  write-through buffer (bytes are forwarded immediately, so a `Flush` of the
  then-empty buffer always succeeds).  This keeps the observable byte
  sequence and the first-error-wins behaviour of the source.
* A Go `encodeState` owns a sticky error and a name table; nested
  `EncodeObject` calls stack fresh states on top of the previous one (the new
  `bufio.Writer` wraps the outer `*encodeState`).  The stack of live states
  is a `List Level`, innermost state first; a write traverses the stack,
  short-circuiting on the first recorded error and recording the outcome at
  every state it passed, exactly like the chain of `encodeState.Write` calls.
-/

namespace PWall

/-- Go `error` values that can arise in the encoder: an opaque I/O failure of
the underlying writer, or `io.EOF` as returned by `io.CopyN` on a short
source (the spec's `TruncatedStream`). -/
inductive Err where
  | ioErr (code : Nat)
  | eof
deriving DecidableEq, Repr

/-- The underlying `io.Writer` given to `EncodeObject`: bytes received so
far, number of physical write attempts, and which attempt fails. -/
structure Base where
  out : String
  cnt : Nat
  oracle : Nat → Option Err

/-- The per-`encodeState` fields: the sticky `err`, and the name table
(`nextName`, `names`).  Go's `map[string]int` is modelled as an association
list; `objName` appends, so the list also records first-encounter order. -/
structure Level where
  err : Option Err
  nextName : Nat
  names : List (String × Nat)

/-- The zero value `encodeState{w: bufio.NewWriter(w)}`: no error, empty name
table (`names == nil`, `nextName == 0`). -/
def freshLevel : Level := ⟨none, 0, []⟩

/-- An oracle for an underlying writer that never fails. -/
def noOrc : Nat → Option Err := fun _ => none

/-- An empty, never-failing underlying writer. -/
def base0 : Base := ⟨"", 0, noOrc⟩

/-- One physical write to the underlying writer. -/
def baseWrite (b : Base) (s : String) : Base × Option Err :=
  match b.oracle b.cnt with
  | none => (⟨b.out ++ s, b.cnt + 1, b.oracle⟩, none)
  | some e => (⟨b.out, b.cnt + 1, b.oracle⟩, some e)

/-- A write issued by the innermost live `encodeState` (the stack head): each
state on the way down guards on its sticky `err` (`if s.err != nil { return
s.err }`), forwards to the writer below it, and records the outcome
(`s.err = err`).  The empty stack is the raw underlying writer. -/
def wWrite : List Level → Base → String → List Level × Base × Option Err
  | [], b, s =>
    let (b', r) := baseWrite b s
    ([], b', r)
  | l :: rest, b, s =>
    match l.err with
    | some e => (l :: rest, b, some e)
    | none =>
      let (rest', b', r) := wWrite rest b s
      ({ l with err := r } :: rest', b', r)

/-- Association-list lookup for the name table. -/
def findId : List (String × Nat) → String → Option Nat
  | [], _ => none
  | (k, v) :: rest, nm => if k = nm then some v else findId rest nm

/-- `encodeState.objName`: look the name up in the receiver's own table (the
stack head); if absent, assign `nextName`, insert, and bump the counter.
`encode` methods always call this with their own state at the head, so the
`[]` case is never reached from the encoder. -/
def objName (stk : List Level) (nm : String) : List Level × Nat :=
  match stk with
  | [] => ([], 0)
  | l :: rest =>
    match findId l.names nm with
    | some n => (l :: rest, n)
    | none =>
      (⟨l.err, l.nextName + 1, l.names ++ [(nm, l.nextName)]⟩ :: rest, l.nextName)

/-- Decimal digits of a natural number (what `fmt.Fprint` prints for a
non-negative `int`); fuel-structural so that it reduces by `decide`. -/
def natDecAux : Nat → Nat → List Char → List Char
  | 0, _, acc => acc
  | fuel + 1, n, acc =>
    let d := Char.ofNat (48 + n % 10)
    if n < 10 then d :: acc else natDecAux fuel (n / 10) (d :: acc)

/-- Decimal rendering of a natural number. -/
def natDec (n : Nat) : String := ⟨natDecAux (n + 1) n []⟩

/-- Decimal rendering of a Go `int` (`fmt.Fprint(s, int(i))`). -/
def intDec (i : Int) : String :=
  if i < 0 then "-" ++ natDec (-i).toNat else natDec i.toNat

/-- Uppercase hexadecimal digit for a value below 16. -/
def hexDig (n : Nat) : Char :=
  if n < 10 then Char.ofNat (48 + n) else Char.ofNat (55 + n)

/-- Minimal-width uppercase hexadecimal digits, as `fmt` `%X` prints an
integer value; fuel-structural. -/
def hexUpAux : Nat → Nat → List Char → List Char
  | 0, _, acc => acc
  | fuel + 1, n, acc =>
    if n < 16 then hexDig n :: acc
    else hexUpAux fuel (n / 16) (hexDig (n % 16) :: acc)

/-- Minimal-width uppercase hex of a number (`%X` on an integer value). -/
def hexUp (n : Nat) : String := ⟨hexUpAux (n + 1) n []⟩

/-- Two uppercase hex digits of one byte (`%X` on a `[]byte` prints each byte
as exactly two digits). -/
def byteHex (b : Nat) : String := ⟨[hexDig (b / 16), hexDig (b % 16)]⟩

/-- Concatenated two-digit hex of each byte, in order. -/
def hexJoin : List Nat → String
  | [] => ""
  | b :: rest => byteHex b ++ hexJoin rest

/-- `fmt.Fprintf(s, "<%X>", []byte(str))`. -/
def hexStr (bs : List Nat) : String := "<" ++ hexJoin bs ++ ">"

/-- The `strings.NewReplacer("(", ..., ")", ..., "\\", ...)` byte map used by
`LiteralString.encode`. -/
def escLit (c : Char) : List Char :=
  if c = '(' then ['\\', '(']
  else if c = ')' then ['\\', ')']
  else if c = '\\' then ['\\', '\\']
  else [c]

/-- The literal-string body after replacement. -/
def litEsc (s : String) : String := ⟨(s.data.map escLit).flatten⟩

/-- The per-rune rendering performed by the loop of `Name.encode`: runes
outside `'!'..'~'` become `#` plus `%X` of the code point, `#` becomes
`#23`, anything else passes through. -/
def escName (c : Char) : List Char :=
  if c < '!' ∨ '~' < c then '#' :: (hexUp c.toNat).data
  else if c = '#' then ['#', '2', '3']
  else [c]

/-- Concatenated `Name.encode` loop output for a list of runes. -/
def nmOut (cs : List Char) : String := ⟨(cs.map escName).flatten⟩

/-- The object model (`pdf.Object` and its implementations).  `null` stands
for a nil `Object` interface value (handled by `EncodeObject` before any
state is created).  `Real` is omitted: no claim concerns it and its `%#f`
formatting is floating point.  `Dict` is a Go map whose iteration order is
unspecified; it is modelled as an entry list and the claims do not depend on
the order.  A `Stream`'s `io.Reader` is modelled as the byte sequence it can
supply. -/
inductive Object where
  | boolean (b : Bool)
  | integer (i : Int)
  | literalString (s : String)
  | hexString (bs : List Nat)
  | name (s : String)
  | array (xs : List Object)
  | dict (es : List (String × Object))
  | stream (length : Int) (data : String)
  | indirect (nm : String) (obj : Object)
  | reference (nm : String)
  | null

/-- Discriminator for the nil-interface check `obj == nil` in `EncodeObject`. -/
def Object.isNull : Object → Bool
  | .null => true
  | _ => false

/- Size measure for the encoder's recursion: `Stream.encode` calls
`EncodeObject` on a freshly built one-entry dictionary (size 4), so a stream
weighs 6. -/
mutual
def osize : Object → Nat
  | .array xs => 1 + lsize xs
  | .dict es => 1 + esize es
  | .indirect _ o => 2 + osize o
  | .stream _ _ => 6
  | _ => 1

def lsize : List Object → Nat
  | [] => 0
  | o :: r => 1 + osize o + lsize r

def esize : List (String × Object) → Nat
  | [] => 0
  | (_, v) :: r => 2 + osize v + esize r
end

/-- The rune loop of `Name.encode`: the `Fprintf`/`WriteString`/`WriteRune`
result is checked for every rune and returned on failure. -/
def encNameChars : List Char → List Level → Base → List Level × Base × Option Err
  | [], stk, b => (stk, b, none)
  | c :: cs, stk, b =>
    let (stk', b', r) := wWrite stk b ⟨escName c⟩
    match r with
    | some e => (stk', b', some e)
    | none => encNameChars cs stk' b'

/-- `io.CopyN(s, stream.Data, n)`: copies up to `n` bytes from the source
through the state's `Write`; returns `io.EOF` when the source supplies fewer
than `n` bytes, a write error if the forwarding write fails, and succeeds
doing nothing when `n ≤ 0`. -/
def copyN (stk : List Level) (b : Base) (data : String) (n : Int) :
    List Level × Base × Option Err :=
  if n ≤ 0 then (stk, b, none)
  else if data.length = 0 then (stk, b, some .eof)
  else
    let (stk', b', r) := wWrite stk b (data.take n.toNat)
    match r with
    | some e => (stk', b', some e)
    | none =>
      if (data.length : Int) < n then (stk', b', some .eof) else (stk', b', none)

mutual

/-- `EncodeObject(w, obj)`: a nil object writes `null` straight to `w`;
otherwise a fresh `encodeState` is pushed on top of `w`, `obj.encode` runs in
it, and the deferred `Close` makes the call return the render error if any,
else the state's sticky error (a successful `Flush` of the write-through
buffer returns nil).  `encode` only ever writes, so it returns a stack of the
same shape it was given; the `[]` branch is unreachable. -/
def EncodeObject (stk : List Level) (b : Base) (obj : Object) :
    List Level × Base × Option Err :=
  if obj.isNull then wWrite stk b "null"
  else
    match encode obj (freshLevel :: stk) b with
    | ([], b', r) => ([], b', r)
    | (ew :: stk', b', r) =>
      (stk', b', match r with | some e => some e | none => ew.err)
termination_by (osize obj, 1)
decreasing_by
  all_goals first
    | (apply Prod.Lex.right; omega)
    | (apply Prod.Lex.left; simp only [osize, lsize, esize]; omega)

/-- The `encode` methods of the `Object` implementations, dispatched on the
variant; the receiver `encodeState` is the stack head.  Write results that
the source ignores are ignored here (`let (stk, b, _) := ...`); write results
the source checks are matched on. -/
def encode (obj : Object) (stk : List Level) (b : Base) :
    List Level × Base × Option Err :=
  match obj with
  | .null => (stk, b, none)
  | .boolean v => wWrite stk b (if v then "true" else "false")
  | .integer i => wWrite stk b (intDec i)
  | .literalString s =>
    let (stk, b, _) := wWrite stk b "("
    let (stk, b, _) := wWrite stk b (litEsc s)
    let (stk, b, _) := wWrite stk b ")"
    (stk, b, none)
  | .hexString bs => wWrite stk b (hexStr bs)
  | .name s =>
    let (stk, b, _) := wWrite stk b "/"
    encNameChars s.data stk b
  | .array xs =>
    let (stk, b, _) := wWrite stk b "["
    (match encodeElems xs "" stk b with
     | (stk, b, some e) => (stk, b, some e)
     | (stk, b, none) =>
       let (stk, b, _) := wWrite stk b "]"
       (stk, b, none))
  | .dict es =>
    let (stk, b, _) := wWrite stk b "<<"
    (match encodeEntries es stk b with
     | (stk, b, some e) => (stk, b, some e)
     | (stk, b, none) =>
       let (stk, b, _) := wWrite stk b "\n>>"
       (stk, b, none))
  | .stream len data =>
    (match EncodeObject stk b (.dict [("Length", .integer len)]) with
     | (stk, b, some e) => (stk, b, some e)
     | (stk, b, none) =>
       let (stk, b, _) := wWrite stk b "\nstream\n"
       (match copyN stk b data len with
        | (stk, b, some e) => (stk, b, some e)
        | (stk, b, none) =>
          let (stk, b, _) := wWrite stk b "\nendstream\n"
          (stk, b, none)))
  | .indirect nm o =>
    let (stk, n) := objName stk nm
    (match wWrite stk b (intDec n) with
     | (stk, b, some e) => (stk, b, some e)
     | (stk, b, none) =>
       let (stk, b, _) := wWrite stk b " 0 obj\n"
       (match encode o stk b with
        | (stk, b, some e) => (stk, b, some e)
        | (stk, b, none) =>
          let (stk, b, _) := wWrite stk b "\nendobj\n"
          (stk, b, none)))
  | .reference nm =>
    let (stk, n) := objName stk nm
    (match wWrite stk b (intDec n) with
     | (stk, b, some e) => (stk, b, some e)
     | (stk, b, none) =>
       let (stk, b, _) := wWrite stk b " 0 R"
       (stk, b, none))
termination_by (osize obj, 0)
decreasing_by
  all_goals first
    | (apply Prod.Lex.right; omega)
    | (apply Prod.Lex.left; simp only [osize, lsize, esize]; omega)

/-- The element loop of `Array.encode`: the spacing write and the nested
`EncodeObject` are both checked; spacing is empty before the first element
and a single space before each later one. -/
def encodeElems (xs : List Object) (sp : String) (stk : List Level) (b : Base) :
    List Level × Base × Option Err :=
  match xs with
  | [] => (stk, b, none)
  | o :: rest =>
    match wWrite stk b sp with
    | (stk, b, some e) => (stk, b, some e)
    | (stk, b, none) =>
      match EncodeObject stk b o with
      | (stk, b, some e) => (stk, b, some e)
      | (stk, b, none) => encodeElems rest " " stk b
termination_by (lsize xs, 0)
decreasing_by
  all_goals first
    | (apply Prod.Lex.right; omega)
    | (apply Prod.Lex.left; simp only [osize, lsize, esize]; omega)

/-- The entry loop of `Dict.encode`: newline, key (as a `Name` through
`EncodeObject`), space, value; only the two `EncodeObject` results are
checked. -/
def encodeEntries (es : List (String × Object)) (stk : List Level) (b : Base) :
    List Level × Base × Option Err :=
  match es with
  | [] => (stk, b, none)
  | (k, v) :: rest =>
    let (stk, b, _) := wWrite stk b "\n"
    match EncodeObject stk b (.name k) with
    | (stk, b, some e) => (stk, b, some e)
    | (stk, b, none) =>
      let (stk, b, _) := wWrite stk b " "
      match EncodeObject stk b v with
      | (stk, b, some e) => (stk, b, some e)
      | (stk, b, none) => encodeEntries rest stk b
termination_by (esize es, 0)
decreasing_by
  all_goals first
    | (apply Prod.Lex.right; omega)
    | (apply Prod.Lex.left; simp only [osize, lsize, esize]; omega)
end

/-- The four write methods of `encodeState` and its `Close`.  In the
embedding, byte-slice and string payloads are both `String`s and a
byte/rune payload is a `Char`, so the methods share the guarded forwarding
`wWrite`; the method receiver is the stack head. -/
def Write (stk : List Level) (b : Base) (buf : String) :
    List Level × Base × Option Err := wWrite stk b buf

/-- `encodeState.WriteString`. -/
def WriteString (stk : List Level) (b : Base) (s : String) :
    List Level × Base × Option Err := wWrite stk b s

/-- `encodeState.WriteByte`. -/
def WriteByte (stk : List Level) (b : Base) (c : Char) :
    List Level × Base × Option Err := wWrite stk b (String.singleton c)

/-- `encodeState.WriteRune`. -/
def WriteRune (stk : List Level) (b : Base) (c : Char) :
    List Level × Base × Option Err := wWrite stk b (String.singleton c)

/-- `encodeState.Close`: return the recorded error if there is one, else
flush (a no-op success for the write-through buffer model) and record its
result. -/
def Close (l : Level) : Level × Option Err :=
  match l.err with
  | some e => (l, some e)
  | none => (⟨none, l.nextName, l.names⟩, none)

/-- The document-level body loop plus end-of-file marker of `pdf.Encode`:
each `Indirect` of `p.Body` goes through `EncodeObject(w, obj)` over the raw
writer (empty state stack), stopping at the first error; then `io.WriteString
(w, "%%EOF")`. -/
def encodeBody : List (String × Object) → Base → Base × Option Err
  | [], b =>
    let (b', r) := baseWrite b "%%EOF"
    (b', r)
  | (nm, o) :: rest, b =>
    match EncodeObject [] b (.indirect nm o) with
    | (_, b', some e) => (b', some e)
    | (_, b', none) => encodeBody rest b'

/-- `pdf.Encode(w, p)`.  Modelled from the spec: the header `Fprintf` in the
source targets `bw`, an identifier with no definition in src/pdf/pdf.go (the
file does not compile as given); per the spec's "one-line version header"
wrapping the same output stream, the header is written to the destination
writer.  `Version = "1.7"`, so the header line is `%PDF-1.7`. -/
def Encode (b : Base) (body : List (String × Object)) : Base × Option Err :=
  match baseWrite b ("%PDF-" ++ "1.7" ++ "\n") with
  | (b', some e) => (b', some e)
  | (b', none) => encodeBody body b'

/-! ### Error-free runs of the write chain -/

/-- Every live state in the stack has no recorded error. -/
def cleanStk (stk : List Level) : Prop := ∀ l ∈ stk, l.err = none

theorem cleanStk_nil : cleanStk [] := by
  intro l h
  cases h

theorem cleanStk_cons {l : Level} {stk : List Level} (hl : l.err = none)
    (hc : cleanStk stk) : cleanStk (l :: stk) := by
  intro x hx
  rcases List.mem_cons.mp hx with h | h
  · subst h; exact hl
  · exact hc x h

theorem level_eta {l : Level} (hl : l.err = none) :
    (⟨none, l.nextName, l.names⟩ : Level) = l := by
  cases l
  simp_all

/-- With a never-failing underlying writer and a clean stack, a write simply
appends its payload, consumes one write attempt, succeeds, and records `nil`
everywhere (leaving the stack unchanged). -/
theorem wWrite_clean : ∀ (stk : List Level) (b : Base) (s : String),
    cleanStk stk → b.oracle = noOrc →
    wWrite stk b s = (stk, ⟨b.out ++ s, b.cnt + 1, b.oracle⟩, none) := by
  intro stk
  induction stk with
  | nil =>
    intro b s _ ho
    simp [wWrite, baseWrite, ho, noOrc]
  | cons l rest ih =>
    intro b s hc ho
    have hl : l.err = none := hc l (List.mem_cons_self _ _)
    have hrest : cleanStk rest := fun x hx => hc x (List.mem_cons_of_mem _ hx)
    simp [wWrite, hl, ih b s hrest ho, level_eta hl]

theorem str_mk_append (a b : List Char) : (⟨a⟩ : String) ++ ⟨b⟩ = ⟨a ++ b⟩ := rfl

/-- Under a clean stack and never-failing writer, the `Name.encode` rune
loop writes `nmOut` of the runes (one write per rune) and succeeds. -/
theorem encNameChars_clean : ∀ (cs : List Char) (stk : List Level) (b : Base),
    cleanStk stk → b.oracle = noOrc →
    encNameChars cs stk b =
      (stk, ⟨b.out ++ nmOut cs, b.cnt + cs.length, b.oracle⟩, none) := by
  intro cs
  induction cs with
  | nil =>
    intro stk b hc ho
    simp [encNameChars, nmOut, String.append_empty]
  | cons c cs ih =>
    intro stk b hc ho
    rw [encNameChars, wWrite_clean stk b _ hc ho]
    simp only
    rw [ih stk ⟨b.out ++ ⟨escName c⟩, b.cnt + 1, b.oracle⟩ hc ho]
    simp [nmOut, str_mk_append, String.append_assoc, Nat.add_comm, Nat.add_assoc,
      Nat.add_left_comm]

/-- `wWrite_clean` with the never-failing oracle pinned syntactically. -/
theorem wWrite_cleanN (stk : List Level) (o : String) (c : Nat) (s : String)
    (hc : cleanStk stk) :
    wWrite stk ⟨o, c, noOrc⟩ s = (stk, ⟨o ++ s, c + 1, noOrc⟩, none) :=
  wWrite_clean stk ⟨o, c, noOrc⟩ s hc rfl

/-- `encNameChars_clean` with the never-failing oracle pinned. -/
theorem encNameChars_cleanN (cs : List Char) (stk : List Level) (o : String)
    (c : Nat) (hc : cleanStk stk) :
    encNameChars cs stk ⟨o, c, noOrc⟩ =
      (stk, ⟨o ++ nmOut cs, c + cs.length, noOrc⟩, none) :=
  encNameChars_clean cs stk ⟨o, c, noOrc⟩ hc rfl

/-- The factored form of an `encode` method's effect over a never-failing
writer: given the receiver state, there are a successor state, an output
chunk, a write count and a result that do not depend on the surrounding
clean stack or on the writer's past output. -/
def EncPure (obj : Object) : Prop :=
  ∀ l : Level, l.err = none →
    ∃ (l' : Level) (δ : String) (κ : Nat) (r : Option Err),
      l'.err = none ∧
      ∀ (stk : List Level) (o : String) (c : Nat), cleanStk stk →
        encode obj (l :: stk) ⟨o, c, noOrc⟩ = (l' :: stk, ⟨o ++ δ, c + κ, noOrc⟩, r)

/-- The factored form of `EncodeObject`'s effect over a never-failing
writer: output chunk, write count and result depend only on the object
(every call starts from a fresh `encodeState`). -/
def ObjPure (obj : Object) : Prop :=
  ∃ (δ : String) (κ : Nat) (r : Option Err),
    ∀ (stk : List Level) (o : String) (c : Nat), cleanStk stk →
      EncodeObject stk ⟨o, c, noOrc⟩ obj = (stk, ⟨o ++ δ, c + κ, noOrc⟩, r)

theorem objPure_of_encPure (obj : Object) (h : EncPure obj) : ObjPure obj := by
  cases hn : obj.isNull with
  | true =>
    cases obj <;> simp [Object.isNull] at hn
    refine ⟨"null", 1, none, ?_⟩
    intro stk o c hc
    rw [EncodeObject]
    simp [Object.isNull, wWrite_cleanN stk o c _ hc]
  | false =>
    obtain ⟨l', δ, κ, r, hl', henc⟩ := h freshLevel rfl
    refine ⟨δ, κ, r, ?_⟩
    intro stk o c hc
    rw [EncodeObject]
    simp only [hn, Bool.false_eq_true, if_false]
    rw [henc stk o c hc]
    cases r with
    | none => simp [hl']
    | some e => simp

/-! ### `EncPure` for the non-recursive variants -/

theorem encPure_null : EncPure .null := by
  intro l hl
  refine ⟨l, "", 0, none, hl, ?_⟩
  intro stk o c _
  simp [encode]

theorem encPure_boolean (v : Bool) : EncPure (.boolean v) := by
  intro l hl
  refine ⟨l, if v then "true" else "false", 1, none, hl, ?_⟩
  intro stk o c hc
  simp only [encode]
  exact wWrite_cleanN _ _ _ _ (cleanStk_cons hl hc)

theorem encPure_integer (i : Int) : EncPure (.integer i) := by
  intro l hl
  refine ⟨l, intDec i, 1, none, hl, ?_⟩
  intro stk o c hc
  simp only [encode]
  exact wWrite_cleanN _ _ _ _ (cleanStk_cons hl hc)

theorem encPure_hexString (bs : List Nat) : EncPure (.hexString bs) := by
  intro l hl
  refine ⟨l, hexStr bs, 1, none, hl, ?_⟩
  intro stk o c hc
  simp only [encode]
  exact wWrite_cleanN _ _ _ _ (cleanStk_cons hl hc)

theorem encPure_literalString (s : String) : EncPure (.literalString s) := by
  intro l hl
  refine ⟨l, "(" ++ (litEsc s ++ ")"), 3, none, hl, ?_⟩
  intro stk o c hc
  have hcs : cleanStk (l :: stk) := cleanStk_cons hl hc
  simp only [encode]
  simp [wWrite_cleanN, hcs, String.append_assoc]

theorem encPure_name (s : String) : EncPure (.name s) := by
  intro l hl
  refine ⟨l, "/" ++ nmOut s.data, 1 + s.data.length, none, hl, ?_⟩
  intro stk o c hc
  have hcs : cleanStk (l :: stk) := cleanStk_cons hl hc
  simp only [encode]
  simp [wWrite_cleanN, hcs, encNameChars_cleanN, String.append_assoc, Nat.add_assoc]

theorem encPure_reference (nm : String) : EncPure (.reference nm) := by
  intro l hl
  rcases hfind : findId l.names nm with _ | nid
  · refine ⟨⟨l.err, l.nextName + 1, l.names ++ [(nm, l.nextName)]⟩,
      intDec l.nextName ++ " 0 R", 2, none, hl, ?_⟩
    intro stk o c hc
    have hcs : cleanStk ((⟨l.err, l.nextName + 1, l.names ++ [(nm, l.nextName)]⟩ : Level) :: stk) :=
      cleanStk_cons hl hc
    simp only [encode, objName, hfind]
    simp [wWrite_cleanN, hcs, String.append_assoc, Nat.add_assoc]
  · refine ⟨l, intDec nid ++ " 0 R", 2, none, hl, ?_⟩
    intro stk o c hc
    have hcs : cleanStk (l :: stk) := cleanStk_cons hl hc
    simp only [encode, objName, hfind]
    simp [wWrite_cleanN, hcs, String.append_assoc, Nat.add_assoc]

theorem objPure_name (s : String) : ObjPure (.name s) :=
  objPure_of_encPure _ (encPure_name s)

/-! ### The loops of `Array.encode` and `Dict.encode` -/

theorem encodeElems_pure : ∀ (ys : List Object), (∀ x ∈ ys, ObjPure x) →
    ∀ (sp : String),
    ∃ (δ : String) (κ : Nat) (r : Option Err),
      ∀ (stk : List Level) (o : String) (c : Nat), cleanStk stk →
        encodeElems ys sp stk ⟨o, c, noOrc⟩ = (stk, ⟨o ++ δ, c + κ, noOrc⟩, r) := by
  intro ys
  induction ys with
  | nil =>
    intro _ sp
    refine ⟨"", 0, none, ?_⟩
    intro stk o c _
    simp [encodeElems]
  | cons y ys ih =>
    intro hall sp
    obtain ⟨δy, κy, ry, hy⟩ := hall y (List.mem_cons_self _ _)
    obtain ⟨δs, κs, rs, hs⟩ := ih (fun x hx => hall x (List.mem_cons_of_mem _ hx)) " "
    cases ry with
    | some e =>
      refine ⟨sp ++ δy, 1 + κy, some e, ?_⟩
      intro stk o c hc
      simp only [encodeElems]
      simp [wWrite_cleanN, hc, hy, String.append_assoc, Nat.add_assoc]
    | none =>
      refine ⟨sp ++ (δy ++ δs), 1 + (κy + κs), rs, ?_⟩
      intro stk o c hc
      simp only [encodeElems]
      simp [wWrite_cleanN, hc, hy, hs, String.append_assoc, Nat.add_assoc]

theorem encodeEntries_pure : ∀ (es : List (String × Object)),
    (∀ p ∈ es, ObjPure p.2) →
    ∃ (δ : String) (κ : Nat) (r : Option Err),
      ∀ (stk : List Level) (o : String) (c : Nat), cleanStk stk →
        encodeEntries es stk ⟨o, c, noOrc⟩ = (stk, ⟨o ++ δ, c + κ, noOrc⟩, r) := by
  intro es
  induction es with
  | nil =>
    intro _
    refine ⟨"", 0, none, ?_⟩
    intro stk o c _
    simp [encodeEntries]
  | cons p rest ih =>
    obtain ⟨k, v⟩ := p
    intro hall
    obtain ⟨δk, κk, rk, hk⟩ := objPure_name k
    obtain ⟨δv, κv, rv, hv⟩ := hall (k, v) (List.mem_cons_self _ _)
    obtain ⟨δs, κs, rs, hs⟩ := ih (fun x hx => hall x (List.mem_cons_of_mem _ hx))
    cases rk with
    | some e =>
      refine ⟨"\n" ++ δk, 1 + κk, some e, ?_⟩
      intro stk o c hc
      simp only [encodeEntries]
      simp [wWrite_cleanN, hc, hk, String.append_assoc, Nat.add_assoc]
    | none =>
      cases rv with
      | some e =>
        refine ⟨"\n" ++ (δk ++ (" " ++ δv)), 1 + (κk + (1 + κv)), some e, ?_⟩
        intro stk o c hc
        simp only [encodeEntries]
        simp [wWrite_cleanN, hc, hk, hv, String.append_assoc, Nat.add_assoc]
      | none =>
        refine ⟨"\n" ++ (δk ++ (" " ++ (δv ++ δs))), 1 + (κk + (1 + (κv + κs))), rs, ?_⟩
        intro stk o c hc
        simp only [encodeEntries]
        simp [wWrite_cleanN, hc, hk, hv, hs, String.append_assoc, Nat.add_assoc]

/-! ### The size measure bounds the recursion -/

theorem osize_pos (obj : Object) : 1 ≤ osize obj := by
  cases obj <;> simp [osize] <;> omega

theorem osize_lt_lsize {x : Object} : ∀ {xs : List Object}, x ∈ xs →
    osize x < lsize xs := by
  intro xs
  induction xs with
  | nil => intro h; cases h
  | cons y ys ih =>
    intro h
    rcases List.mem_cons.mp h with h | h
    · subst h; simp [lsize]; omega
    · have := ih h; simp [lsize]; omega

theorem osize_lt_esize {k : String} {v : Object} :
    ∀ {es : List (String × Object)}, (k, v) ∈ es → osize v < esize es := by
  intro es
  induction es with
  | nil => intro h; cases h
  | cons p ps ih =>
    intro h
    rcases List.mem_cons.mp h with h | h
    · obtain ⟨p1, p2⟩ := p
      injection h with h1 h2
      subst h2; simp [esize]; omega
    · have := ih h
      obtain ⟨p1, p2⟩ := p
      simp [esize]; omega

/-! ### `EncPure` holds for every object -/

theorem encPure_all : ∀ (n : Nat) (obj : Object), osize obj ≤ n → EncPure obj := by
  intro n
  induction n with
  | zero =>
    intro obj h
    exact absurd (osize_pos obj) (by omega)
  | succ n ihn =>
    have ihObj : ∀ o : Object, osize o ≤ n → ObjPure o :=
      fun o hsz => objPure_of_encPure o (ihn o hsz)
    intro obj hle
    cases obj with
    | null => exact encPure_null
    | boolean v => exact encPure_boolean v
    | integer i => exact encPure_integer i
    | literalString s => exact encPure_literalString s
    | hexString bs => exact encPure_hexString bs
    | name s => exact encPure_name s
    | reference nm => exact encPure_reference nm
    | array xs =>
      have hsz : lsize xs ≤ n := by simp [osize] at hle; omega
      have hall : ∀ x ∈ xs, ObjPure x := fun x hx =>
        ihObj x (by have := osize_lt_lsize hx; omega)
      obtain ⟨δL, κL, rL, hL⟩ := encodeElems_pure xs hall ""
      intro l hl
      have hcsW : ∀ stk : List Level, cleanStk stk → cleanStk (l :: stk) :=
        fun stk hc => cleanStk_cons hl hc
      cases rL with
      | some e =>
        refine ⟨l, "[" ++ δL, 1 + κL, some e, hl, ?_⟩
        intro stk o c hc
        have hcs := hcsW stk hc
        simp only [encode]
        simp [wWrite_cleanN, hcs, hL, String.append_assoc, Nat.add_assoc]
      | none =>
        refine ⟨l, "[" ++ (δL ++ "]"), 1 + (κL + 1), none, hl, ?_⟩
        intro stk o c hc
        have hcs := hcsW stk hc
        simp only [encode]
        simp [wWrite_cleanN, hcs, hL, String.append_assoc, Nat.add_assoc]
    | dict es =>
      have hsz : esize es ≤ n := by simp [osize] at hle; omega
      have hall : ∀ p ∈ es, ObjPure p.2 := by
        intro p hp
        obtain ⟨k, v⟩ := p
        exact ihObj v (by have := osize_lt_esize hp; omega)
      obtain ⟨δE, κE, rE, hE⟩ := encodeEntries_pure es hall
      intro l hl
      cases rE with
      | some e =>
        refine ⟨l, "<<" ++ δE, 1 + κE, some e, hl, ?_⟩
        intro stk o c hc
        have hcs := cleanStk_cons hl hc
        simp only [encode]
        simp [wWrite_cleanN, hcs, hE, String.append_assoc, Nat.add_assoc]
      | none =>
        refine ⟨l, "<<" ++ (δE ++ "\n>>"), 1 + (κE + 1), none, hl, ?_⟩
        intro stk o c hc
        have hcs := cleanStk_cons hl hc
        simp only [encode]
        simp [wWrite_cleanN, hcs, hE, String.append_assoc, Nat.add_assoc]
    | stream len data =>
      have hdl : ObjPure (.dict [("Length", .integer len)]) := by
        refine ihObj _ ?_
        simp [osize, esize] at hle ⊢
        omega
      obtain ⟨δd, κd, rd, hd⟩ := hdl
      intro l hl
      cases rd with
      | some e =>
        refine ⟨l, δd, κd, some e, hl, ?_⟩
        intro stk o c hc
        have hcs := cleanStk_cons hl hc
        simp only [encode]
        simp [hd, hcs]
      | none =>
        by_cases h0 : len ≤ 0
        · refine ⟨l, δd ++ ("\nstream\n" ++ "\nendstream\n"), κd + 2, none, hl, ?_⟩
          intro stk o c hc
          have hcs := cleanStk_cons hl hc
          simp only [encode]
          simp [hd, hcs, wWrite_cleanN, copyN, h0, String.append_assoc, Nat.add_assoc]
        · by_cases hd0 : data.length = 0
          · refine ⟨l, δd ++ "\nstream\n", κd + 1, some .eof, hl, ?_⟩
            intro stk o c hc
            have hcs := cleanStk_cons hl hc
            simp only [encode]
            simp [hd, hcs, wWrite_cleanN, copyN, h0, hd0, String.append_assoc,
              Nat.add_assoc]
          · by_cases hlt : (data.length : Int) < len
            · refine ⟨l, δd ++ ("\nstream\n" ++ data.take len.toNat), κd + 2,
                some .eof, hl, ?_⟩
              intro stk o c hc
              have hcs := cleanStk_cons hl hc
              simp only [encode]
              simp [hd, hcs, wWrite_cleanN, copyN, h0, hd0, hlt, String.append_assoc,
                Nat.add_assoc]
            · refine ⟨l, δd ++ ("\nstream\n" ++ (data.take len.toNat ++ "\nendstream\n")),
                κd + 3, none, hl, ?_⟩
              intro stk o c hc
              have hcs := cleanStk_cons hl hc
              simp only [encode]
              simp [hd, hcs, wWrite_cleanN, copyN, h0, hd0, hlt, String.append_assoc,
                Nat.add_assoc]
    | indirect nm o =>
      have hsz : osize o ≤ n := by simp [osize] at hle; omega
      have hEo : EncPure o := ihn o hsz
      intro l hl
      rcases hfind : findId l.names nm with _ | nid
      · obtain ⟨l₂, δo, κo, ro, hl₂, hoEnc⟩ :=
          hEo ⟨l.err, l.nextName + 1, l.names ++ [(nm, l.nextName)]⟩ hl
        cases ro with
        | some e =>
          refine ⟨l₂, intDec l.nextName ++ (" 0 obj\n" ++ δo), 2 + κo, some e, hl₂, ?_⟩
          intro stk o' c hc
          have hcs1 : cleanStk
              ((⟨l.err, l.nextName + 1, l.names ++ [(nm, l.nextName)]⟩ : Level) :: stk) :=
            cleanStk_cons hl hc
          simp only [encode, objName, hfind]
          simp [wWrite_cleanN, hcs1, hoEnc, hc, String.append_assoc, Nat.add_assoc]
        | none =>
          refine ⟨l₂, intDec l.nextName ++ (" 0 obj\n" ++ (δo ++ "\nendobj\n")),
            2 + (κo + 1), none, hl₂, ?_⟩
          intro stk o' c hc
          have hcs1 : cleanStk
              ((⟨l.err, l.nextName + 1, l.names ++ [(nm, l.nextName)]⟩ : Level) :: stk) :=
            cleanStk_cons hl hc
          have hcs2 : cleanStk (l₂ :: stk) := cleanStk_cons hl₂ hc
          simp only [encode, objName, hfind]
          simp [wWrite_cleanN, hcs1, hcs2, hoEnc, hc, String.append_assoc, Nat.add_assoc]
      · obtain ⟨l₂, δo, κo, ro, hl₂, hoEnc⟩ := hEo l hl
        cases ro with
        | some e =>
          refine ⟨l₂, intDec nid ++ (" 0 obj\n" ++ δo), 2 + κo, some e, hl₂, ?_⟩
          intro stk o' c hc
          have hcs1 : cleanStk (l :: stk) := cleanStk_cons hl hc
          simp only [encode, objName, hfind]
          simp [wWrite_cleanN, hcs1, hoEnc, hc, String.append_assoc, Nat.add_assoc]
        | none =>
          refine ⟨l₂, intDec nid ++ (" 0 obj\n" ++ (δo ++ "\nendobj\n")),
            2 + (κo + 1), none, hl₂, ?_⟩
          intro stk o' c hc
          have hcs1 : cleanStk (l :: stk) := cleanStk_cons hl hc
          have hcs2 : cleanStk (l₂ :: stk) := cleanStk_cons hl₂ hc
          simp only [encode, objName, hfind]
          simp [wWrite_cleanN, hcs1, hcs2, hoEnc, hc, String.append_assoc, Nat.add_assoc]

/-- Every `encode` method factors over a never-failing writer. -/
theorem encPure (obj : Object) : EncPure obj :=
  encPure_all (osize obj) obj le_rfl

/-- Every `EncodeObject` call factors over a never-failing writer. -/
theorem objPure (obj : Object) : ObjPure obj :=
  objPure_of_encPure obj (encPure obj)

/-! ### Canonical output, write count, and result of one `EncodeObject` -/

/-- The bytes `EncodeObject` produces for `obj` on a fresh, never-failing
writer. -/
def encOut (obj : Object) : String := (EncodeObject [] base0 obj).2.1.out

/-- The number of write attempts of that run. -/
def encCnt (obj : Object) : Nat := (EncodeObject [] base0 obj).2.1.cnt

/-- The error `EncodeObject` returns for `obj` over a never-failing
writer (stream truncation is the only possible failure there). -/
def encErr (obj : Object) : Option Err := (EncodeObject [] base0 obj).2.2

/-- Master run lemma: over a never-failing writer with a clean stack, an
`EncodeObject` call appends `encOut obj`, uses `encCnt obj` write attempts,
returns `encErr obj`, and leaves the stack untouched. -/
theorem EncodeObject_run (obj : Object) (stk : List Level) (o : String) (c : Nat)
    (hc : cleanStk stk) :
    EncodeObject stk ⟨o, c, noOrc⟩ obj =
      (stk, ⟨o ++ encOut obj, c + encCnt obj, noOrc⟩, encErr obj) := by
  obtain ⟨δ, κ, r, h⟩ := objPure obj
  have h0 := h [] "" 0 cleanStk_nil
  have hout : encOut obj = δ := by
    simp [encOut, base0, h0]
  have hcnt : encCnt obj = κ := by
    simp [encCnt, base0, h0]
  have herr : encErr obj = r := by
    simp [encErr, base0, h0]
  rw [hout, hcnt, herr]
  exact h stk o c hc

@[simp] theorem str_empty_append (s : String) : "" ++ s = s := rfl

theorem cleanStk_fresh : cleanStk [freshLevel] := cleanStk_cons rfl cleanStk_nil

theorem intDec_zero : intDec 0 = "0" := by decide

/-! ### Runs of the individual variants on a fresh never-failing writer -/

theorem run_null : EncodeObject [] base0 .null = ([], ⟨"null", 1, noOrc⟩, none) := by
  rw [show (base0 : Base) = ⟨"", 0, noOrc⟩ from rfl, EncodeObject]
  simp [Object.isNull, wWrite_cleanN [] "" 0 "null" cleanStk_nil]

theorem run_boolean (v : Bool) :
    EncodeObject [] base0 (.boolean v) =
      ([], ⟨if v then "true" else "false", 1, noOrc⟩, none) := by
  rw [show (base0 : Base) = ⟨"", 0, noOrc⟩ from rfl, EncodeObject]
  simp only [Object.isNull, Bool.false_eq_true, if_false, encode]
  rw [wWrite_cleanN [freshLevel] "" 0 _ cleanStk_fresh]
  simp [freshLevel]

theorem run_integer (i : Int) :
    EncodeObject [] base0 (.integer i) = ([], ⟨intDec i, 1, noOrc⟩, none) := by
  rw [show (base0 : Base) = ⟨"", 0, noOrc⟩ from rfl, EncodeObject]
  simp only [Object.isNull, Bool.false_eq_true, if_false, encode]
  rw [wWrite_cleanN [freshLevel] "" 0 _ cleanStk_fresh]
  simp [freshLevel]

theorem run_literalString (s : String) :
    EncodeObject [] base0 (.literalString s) =
      ([], ⟨"(" ++ (litEsc s ++ ")"), 3, noOrc⟩, none) := by
  have hc1 : cleanStk [(⟨none, 0, []⟩ : Level)] := cleanStk_cons rfl cleanStk_nil
  rw [show (base0 : Base) = ⟨"", 0, noOrc⟩ from rfl, EncodeObject]
  simp only [Object.isNull, Bool.false_eq_true, if_false, encode, freshLevel]
  simp [wWrite_cleanN, hc1, String.append_assoc]

theorem run_hexString (bs : List Nat) :
    EncodeObject [] base0 (.hexString bs) = ([], ⟨hexStr bs, 1, noOrc⟩, none) := by
  rw [show (base0 : Base) = ⟨"", 0, noOrc⟩ from rfl, EncodeObject]
  simp only [Object.isNull, Bool.false_eq_true, if_false, encode]
  rw [wWrite_cleanN [freshLevel] "" 0 _ cleanStk_fresh]
  simp [freshLevel]

theorem run_name (s : String) :
    EncodeObject [] base0 (.name s) =
      ([], ⟨"/" ++ nmOut s.data, 1 + s.data.length, noOrc⟩, none) := by
  rw [show (base0 : Base) = ⟨"", 0, noOrc⟩ from rfl, EncodeObject]
  simp only [Object.isNull, Bool.false_eq_true, if_false, encode]
  rw [wWrite_cleanN [freshLevel] "" 0 _ cleanStk_fresh]
  simp only [str_empty_append]
  rw [encNameChars_cleanN s.data [freshLevel] "/" 1 cleanStk_fresh]
  simp [freshLevel, Nat.add_comm]

theorem run_reference (nm : String) :
    EncodeObject [] base0 (.reference nm) = ([], ⟨"0 0 R", 2, noOrc⟩, none) := by
  have hc2 : cleanStk [(⟨none, 1, [(nm, 0)]⟩ : Level)] := cleanStk_cons rfl cleanStk_nil
  rw [show (base0 : Base) = ⟨"", 0, noOrc⟩ from rfl, EncodeObject]
  simp only [Object.isNull, Bool.false_eq_true, if_false, encode, objName, freshLevel,
    findId]
  simp [wWrite_cleanN, hc2, intDec_zero, String.append_assoc]

/-- Projection form: output and result of the simple variants. -/
theorem encOut_boolean (v : Bool) :
    encOut (.boolean v) = (if v then "true" else "false") := by
  simp [encOut, run_boolean]

theorem encErr_boolean (v : Bool) : encErr (.boolean v) = none := by
  simp [encErr, run_boolean]

theorem encOut_integer (i : Int) : encOut (.integer i) = intDec i := by
  simp [encOut, run_integer]

theorem encErr_integer (i : Int) : encErr (.integer i) = none := by
  simp [encErr, run_integer]

theorem encOut_name (s : String) : encOut (.name s) = "/" ++ nmOut s.data := by
  simp [encOut, run_name]

theorem encErr_name (s : String) : encErr (.name s) = none := by
  simp [encErr, run_name]

theorem encOut_hexString (bs : List Nat) : encOut (.hexString bs) = hexStr bs := by
  simp [encOut, run_hexString]

theorem encErr_hexString (bs : List Nat) : encErr (.hexString bs) = none := by
  simp [encErr, run_hexString]

theorem encOut_literalString (s : String) :
    encOut (.literalString s) = "(" ++ (litEsc s ++ ")") := by
  simp [encOut, run_literalString]

theorem encErr_literalString (s : String) : encErr (.literalString s) = none := by
  simp [encErr, run_literalString]

theorem encOut_reference (nm : String) : encOut (.reference nm) = "0 0 R" := by
  simp [encOut, run_reference]

theorem encErr_reference (nm : String) : encErr (.reference nm) = none := by
  simp [encErr, run_reference]

/-! ### Composite runs: arrays, dictionaries, streams -/

/-- One space between items, none before the first or after the last. -/
def sepSpace : List String → String
  | [] => ""
  | [s] => s
  | s :: rest => s ++ (" " ++ sepSpace rest)

/-- Output of the `Array.encode` element loop: `sp` before the first
element, a single space before each later one. -/
def joinSp : String → List Object → String
  | _, [] => ""
  | sp, x :: rest => sp ++ (encOut x ++ joinSp " " rest)

theorem joinSp_cons_sep : ∀ (xs : List Object) (x : Object) (sp : String),
    joinSp sp (x :: xs) = sp ++ sepSpace ((x :: xs).map encOut) := by
  intro xs
  induction xs with
  | nil =>
    intro x sp
    simp [joinSp, sepSpace, String.append_empty]
  | cons y ys ih =>
    intro x sp
    rw [joinSp, ih y " "]
    simp [sepSpace, String.append_assoc]

theorem encodeElems_run : ∀ (xs : List Object), (∀ x ∈ xs, encErr x = none) →
    ∀ (sp : String) (stk : List Level) (o : String) (c : Nat), cleanStk stk →
    ∃ κ, encodeElems xs sp stk ⟨o, c, noOrc⟩ =
      (stk, ⟨o ++ joinSp sp xs, c + κ, noOrc⟩, none) := by
  intro xs
  induction xs with
  | nil =>
    intro _ sp stk o c hc
    exact ⟨0, by simp [encodeElems, joinSp, String.append_empty]⟩
  | cons x rest ih =>
    intro hall sp stk o c hc
    obtain ⟨κs, hs⟩ := ih (fun y hy => hall y (List.mem_cons_of_mem _ hy)) " "
      stk (o ++ (sp ++ encOut x)) (c + (1 + encCnt x)) hc
    refine ⟨1 + (encCnt x + κs), ?_⟩
    simp only [encodeElems]
    simp [wWrite_cleanN, hc, EncodeObject_run, hall x (List.mem_cons_self _ _),
      hs, joinSp, String.append_assoc, Nat.add_assoc]

/-- Output of the `Dict.encode` entry loop: newline, key, space, value per
entry. -/
def entriesOut : List (String × Object) → String
  | [] => ""
  | (k, v) :: rest =>
    "\n" ++ (encOut (.name k) ++ (" " ++ (encOut v ++ entriesOut rest)))

theorem encodeEntries_run : ∀ (es : List (String × Object)),
    (∀ p ∈ es, encErr p.2 = none) →
    ∀ (stk : List Level) (o : String) (c : Nat), cleanStk stk →
    ∃ κ, encodeEntries es stk ⟨o, c, noOrc⟩ =
      (stk, ⟨o ++ entriesOut es, c + κ, noOrc⟩, none) := by
  intro es
  induction es with
  | nil =>
    intro _ stk o c hc
    exact ⟨0, by simp [encodeEntries, entriesOut, String.append_empty]⟩
  | cons p rest ih =>
    obtain ⟨k, v⟩ := p
    intro hall stk o c hc
    obtain ⟨κs, hs⟩ := ih (fun y hy => hall y (List.mem_cons_of_mem _ hy))
      stk (o ++ ("\n" ++ (encOut (.name k) ++ (" " ++ encOut v))))
      (c + (1 + (encCnt (.name k) + (1 + encCnt v)))) hc
    refine ⟨1 + (encCnt (.name k) + (1 + (encCnt v + κs))), ?_⟩
    simp only [encodeEntries]
    simp [wWrite_cleanN, hc, EncodeObject_run, encErr_name,
      hall (k, v) (List.mem_cons_self _ _), hs, entriesOut,
      String.append_assoc, Nat.add_assoc]

theorem run_array (xs : List Object) (h : ∀ x ∈ xs, encErr x = none) :
    ∃ κ, EncodeObject [] base0 (.array xs) =
      ([], ⟨"[" ++ (joinSp "" xs ++ "]"), κ, noOrc⟩, none) := by
  have hc1 : cleanStk [(⟨none, 0, []⟩ : Level)] := cleanStk_cons rfl cleanStk_nil
  obtain ⟨κL, hL⟩ := encodeElems_run xs h "" [(⟨none, 0, []⟩ : Level)] "[" 1 hc1
  refine ⟨1 + (κL + 1), ?_⟩
  rw [show (base0 : Base) = ⟨"", 0, noOrc⟩ from rfl, EncodeObject]
  simp only [Object.isNull, Bool.false_eq_true, if_false, encode, freshLevel]
  simp [wWrite_cleanN, hc1, hL, String.append_assoc, Nat.add_assoc]

theorem encOut_array (xs : List Object) (h : ∀ x ∈ xs, encErr x = none) :
    encOut (.array xs) = "[" ++ (joinSp "" xs ++ "]") := by
  obtain ⟨κ, hr⟩ := run_array xs h
  simp [encOut, hr]

theorem encErr_array (xs : List Object) (h : ∀ x ∈ xs, encErr x = none) :
    encErr (.array xs) = none := by
  obtain ⟨κ, hr⟩ := run_array xs h
  simp [encErr, hr]

theorem run_dict (es : List (String × Object)) (h : ∀ p ∈ es, encErr p.2 = none) :
    ∃ κ, EncodeObject [] base0 (.dict es) =
      ([], ⟨"<<" ++ (entriesOut es ++ "\n>>"), κ, noOrc⟩, none) := by
  have hc1 : cleanStk [(⟨none, 0, []⟩ : Level)] := cleanStk_cons rfl cleanStk_nil
  obtain ⟨κE, hE⟩ := encodeEntries_run es h [(⟨none, 0, []⟩ : Level)] "<<" 1 hc1
  refine ⟨1 + (κE + 1), ?_⟩
  rw [show (base0 : Base) = ⟨"", 0, noOrc⟩ from rfl, EncodeObject]
  simp only [Object.isNull, Bool.false_eq_true, if_false, encode, freshLevel]
  simp [wWrite_cleanN, hc1, hE, String.append_assoc, Nat.add_assoc]

theorem encOut_dict (es : List (String × Object)) (h : ∀ p ∈ es, encErr p.2 = none) :
    encOut (.dict es) = "<<" ++ (entriesOut es ++ "\n>>") := by
  obtain ⟨κ, hr⟩ := run_dict es h
  simp [encOut, hr]

theorem encErr_dict (es : List (String × Object)) (h : ∀ p ∈ es, encErr p.2 = none) :
    encErr (.dict es) = none := by
  obtain ⟨κ, hr⟩ := run_dict es h
  simp [encErr, hr]

/-! ### String helpers for the stream lemmas -/

theorem str_take_of_le (s : String) (n : Nat) (h : s.length ≤ n) : s.take n = s := by
  apply String.ext
  rw [String.data_take]
  exact List.take_of_length_le h

theorem str_take_zero (s : String) : s.take 0 = "" := by
  apply String.ext
  simp [String.data_take]

theorem str_of_length_zero {s : String} (h : s.length = 0) : s = "" := by
  apply String.ext
  have : s.data.length = 0 := h
  simpa using List.length_eq_zero.mp this

theorem fold_lit (a b c X : String) (h : a ++ b = c) : a ++ (b ++ X) = c ++ X := by
  rw [← String.append_assoc, h]

theorem intDec_coe (N : Nat) : intDec (N : Int) = natDec N := by
  simp [intDec, Int.toNat_natCast]

theorem encOut_nameLength : encOut (.name "Length") = "/Length" := by
  rw [encOut_name]
  decide

/-- The one-entry dictionary `Stream.encode` builds renders as
`<<\n/Length N\n>>` and always succeeds over a never-failing writer. -/
theorem dictLen_out (N : Nat) :
    encOut (.dict [("Length", .integer (N : Int))]) =
      "<<\n/Length " ++ (natDec N ++ "\n>>") := by
  rw [encOut_dict _ (by intro p hp; simp at hp; subst hp; exact encErr_integer _)]
  simp only [entriesOut, encOut_integer, intDec_coe, String.append_empty,
    encOut_nameLength, String.append_assoc]
  rw [fold_lit "<<" "\n" "<<\n" _ (by decide),
    fold_lit "<<\n" "/Length" "<<\n/Length" _ (by decide),
    fold_lit "<<\n/Length" " " "<<\n/Length " _ (by decide)]

theorem dictLen_err (N : Nat) :
    encErr (.dict [("Length", .integer (N : Int))]) = none := by
  refine encErr_dict _ ?_
  intro p hp
  simp at hp
  subst hp
  exact encErr_integer _

/-! ### Stream runs -/

theorem run_stream_ok (N : Nat) (data : String) (hlen : N ≤ data.length) :
    ∃ κ, EncodeObject [] base0 (.stream (N : Int) data) =
      ([], ⟨encOut (.dict [("Length", .integer (N : Int))]) ++
        ("\nstream\n" ++ (data.take N ++ "\nendstream\n")), κ, noOrc⟩, none) := by
  have hc1 : cleanStk [(⟨none, 0, []⟩ : Level)] := cleanStk_cons rfl cleanStk_nil
  have hderr := dictLen_err N
  rcases Nat.eq_zero_or_pos N with rfl | hpos
  · simp only [Nat.cast_zero] at hderr ⊢
    refine ⟨encCnt (.dict [("Length", .integer 0)]) + 2, ?_⟩
    rw [show (base0 : Base) = ⟨"", 0, noOrc⟩ from rfl, EncodeObject]
    simp only [Object.isNull, Bool.false_eq_true, if_false, encode, freshLevel]
    simp [EncodeObject_run, hc1, hderr, wWrite_cleanN, copyN, str_take_zero,
      String.append_assoc, Nat.add_assoc]
  · have hne : ¬ data.length = 0 := by omega
    have hn0 : ¬ ((N : Int) ≤ 0) := by
      have : (0 : Int) < (N : Int) := by exact_mod_cast hpos
      omega
    have hnl : ¬ ((data.length : Int) < (N : Int)) := by
      have : (N : Int) ≤ (data.length : Int) := by exact_mod_cast hlen
      omega
    refine ⟨encCnt (.dict [("Length", .integer (N : Int))]) + 3, ?_⟩
    rw [show (base0 : Base) = ⟨"", 0, noOrc⟩ from rfl, EncodeObject]
    simp only [Object.isNull, Bool.false_eq_true, if_false, encode, freshLevel]
    simp [EncodeObject_run, hc1, hderr, wWrite_cleanN, copyN, hn0, hne, hnl,
      Int.toNat_natCast, String.append_assoc, Nat.add_assoc]

theorem run_stream_trunc (N : Nat) (data : String) (hlen : data.length < N) :
    ∃ κ, EncodeObject [] base0 (.stream (N : Int) data) =
      ([], ⟨encOut (.dict [("Length", .integer (N : Int))]) ++
        ("\nstream\n" ++ data), κ, noOrc⟩, some .eof) := by
  have hc1 : cleanStk [(⟨none, 0, []⟩ : Level)] := cleanStk_cons rfl cleanStk_nil
  have hderr := dictLen_err N
  have hn0 : ¬ ((N : Int) ≤ 0) := by
    have : (0 : Int) < (N : Int) := by exact_mod_cast Nat.lt_of_le_of_lt (Nat.zero_le _) hlen
    omega
  by_cases hd0 : data.length = 0
  · have hdata : data = "" := str_of_length_zero hd0
    subst hdata
    refine ⟨encCnt (.dict [("Length", .integer (N : Int))]) + 1, ?_⟩
    rw [show (base0 : Base) = ⟨"", 0, noOrc⟩ from rfl, EncodeObject]
    simp only [Object.isNull, Bool.false_eq_true, if_false, encode, freshLevel]
    simp [EncodeObject_run, hc1, hderr, wWrite_cleanN, copyN, hn0,
      String.append_assoc, Nat.add_assoc, String.append_empty]
  · have htake : data.take N = data := str_take_of_le data N (Nat.le_of_lt hlen)
    have hlt : ((data.length : Int) < (N : Int)) := by exact_mod_cast hlen
    refine ⟨encCnt (.dict [("Length", .integer (N : Int))]) + 2, ?_⟩
    rw [show (base0 : Base) = ⟨"", 0, noOrc⟩ from rfl, EncodeObject]
    simp only [Object.isNull, Bool.false_eq_true, if_false, encode, freshLevel]
    simp [EncodeObject_run, hc1, hderr, wWrite_cleanN, copyN, hn0, hd0, htake, hlt,
      String.append_assoc, Nat.add_assoc]

/-! ### Runs over an always-failing underlying writer -/

/-- The underlying writer fails on every attempt with error `e`. -/
def AllFail (e : Err) (b : Base) : Prop := ∀ k, b.oracle k = some e

/-- Stack condition maintained while running over such a writer: each live
state has either no recorded error yet, or has recorded `e`. -/
def okStk (e : Err) (stk : List Level) : Prop :=
  ∀ l ∈ stk, l.err = none ∨ l.err = some e

theorem okStk_nil (e : Err) : okStk e [] := by
  intro l h
  cases h

theorem okStk_cons {e : Err} {l : Level} {stk : List Level}
    (hl : l.err = none ∨ l.err = some e) (hs : okStk e stk) : okStk e (l :: stk) := by
  intro x hx
  rcases List.mem_cons.mp hx with h | h
  · subst h; exact hl
  · exact hs x h

theorem level_eta_some {l : Level} {e : Err} (h : l.err = some e) :
    (⟨some e, l.nextName, l.names⟩ : Level) = l := by
  cases l
  simp_all

/-- A write by a state that has already recorded an error is a guarded
no-op returning that error. -/
theorem wWrite_stuck {l : Level} {e : Err} (rest : List Level) (b : Base)
    (s : String) (h : l.err = some e) :
    wWrite (l :: rest) b s = (l :: rest, b, some e) := by
  simp [wWrite, h]

/-- Over an always-failing writer, every write returns `some e`, keeps the
stack condition, preserves the oracle, and stamps `e` into the issuing
state. -/
theorem wWrite_allFail : ∀ (stk : List Level) (b : Base) (s : String) (e : Err),
    AllFail e b → okStk e stk →
    ∃ stk' b', wWrite stk b s = (stk', b', some e) ∧ okStk e stk' ∧ AllFail e b' ∧
      stk'.length = stk.length ∧
      (∀ l₀ rest, stk = l₀ :: rest →
        ∃ rest', stk' = (⟨some e, l₀.nextName, l₀.names⟩ : Level) :: rest') := by
  intro stk
  induction stk with
  | nil =>
    intro b s e hb _
    refine ⟨[], ⟨b.out, b.cnt + 1, b.oracle⟩, ?_, okStk_nil e, hb, rfl, ?_⟩
    · simp [wWrite, baseWrite, hb b.cnt]
    · intro l₀ rest h
      cases h
  | cons l rest ih =>
    intro b s e hb hs
    have hrest : okStk e rest := fun x hx => hs x (List.mem_cons_of_mem _ hx)
    rcases hs l (List.mem_cons_self _ _) with hl | hl
    · obtain ⟨rest', b', hw, hok, hb', hlen, _⟩ := ih b s e hb hrest
      refine ⟨(⟨some e, l.nextName, l.names⟩ : Level) :: rest', b', ?_,
        okStk_cons (Or.inr rfl) hok, hb', by simpa using hlen, ?_⟩
      · simp [wWrite, hl, hw]
      · intro l₀ r0 h
        injection h with h1 h2
        subst h1; subst h2
        exact ⟨rest', rfl⟩
    · refine ⟨l :: rest, b, wWrite_stuck rest b s hl, okStk_cons (Or.inr hl) hrest,
        hb, rfl, ?_⟩
      intro l₀ r0 h
      injection h with h1 h2
      subst h1; subst h2
      exact ⟨rest, by rw [level_eta_some hl]⟩

/-- An `encode` method's behaviour over an always-failing writer: it either
returns the write error or returns nil having recorded the error in its own
state (every variant issues at least one write). -/
def EncFails (obj : Object) : Prop :=
  ∀ (e : Err) (l : Level) (stk : List Level) (b : Base),
    AllFail e b → (l.err = none ∨ l.err = some e) → okStk e stk →
    ∃ l' stk' b' r, encode obj (l :: stk) b = (l' :: stk', b', r) ∧
      (r = some e ∨ (r = none ∧ l'.err = some e)) ∧
      (l'.err = none ∨ l'.err = some e) ∧ okStk e stk' ∧ AllFail e b' ∧
      stk'.length = stk.length

/-- Over an always-failing writer, `EncodeObject` always reports the write
error (even when the variant's own `encode` returned nil). -/
def ObjFails (obj : Object) : Prop :=
  ∀ (e : Err) (stk : List Level) (b : Base), AllFail e b → okStk e stk →
    ∃ stk' b', EncodeObject stk b obj = (stk', b', some e) ∧ okStk e stk' ∧
      AllFail e b' ∧ stk'.length = stk.length

theorem objFails_of_encFails (obj : Object) (hnn : obj.isNull = false)
    (h : EncFails obj) : ObjFails obj := by
  intro e stk b hb hs
  obtain ⟨l', stk', b', r, heq, hr, _, hok, hb', hlen⟩ :=
    h e freshLevel stk b hb (Or.inl rfl) hs
  refine ⟨stk', b', ?_, hok, hb', hlen⟩
  rw [EncodeObject]
  simp only [hnn, Bool.false_eq_true, if_false, heq]
  rcases hr with rfl | ⟨rfl, hl'⟩
  · simp
  · simp [hl']

theorem objFails_null : ObjFails .null := by
  intro e stk b hb hs
  obtain ⟨stk', b', hw, hok, hb', hlen, _⟩ := wWrite_allFail stk b "null" e hb hs
  refine ⟨stk', b', ?_, hok, hb', hlen⟩
  rw [EncodeObject]
  simp only [Object.isNull, if_true, hw]

/-- The `Name.encode` run over an always-failing writer: the slash write
fails silently, so the method returns nil for an empty name (the state keeps
the error) and the error for a non-empty one. -/
theorem encFails_name (s : String) : EncFails (.name s) := by
  intro e l stk b hb hl hs
  obtain ⟨stk₁, b₁, hw, hok₁, hb₁, hlen₁, hhead⟩ :=
    wWrite_allFail (l :: stk) b "/" e hb (okStk_cons hl hs)
  obtain ⟨rest₁, hr₁⟩ := hhead l stk rfl
  subst hr₁
  have hrest₁ : okStk e rest₁ := fun x hx => hok₁ x (List.mem_cons_of_mem _ hx)
  have hlen₁' : rest₁.length = stk.length := by simpa using hlen₁
  cases hsd : s.data with
  | nil =>
    refine ⟨⟨some e, l.nextName, l.names⟩, rest₁, b₁, none, ?_, ?_, ?_, hrest₁, hb₁,
      hlen₁'⟩
    · simp only [encode, hsd, hw, encNameChars]
    · exact Or.inr ⟨rfl, rfl⟩
    · exact Or.inr rfl
  | cons c cs =>
    refine ⟨⟨some e, l.nextName, l.names⟩, rest₁, b₁, some e, ?_, Or.inl rfl,
      Or.inr rfl, hrest₁, hb₁, hlen₁'⟩
    simp only [encode, hsd, hw, encNameChars,
      @wWrite_stuck ⟨some e, l.nextName, l.names⟩ e rest₁ b₁ ⟨escName c⟩ rfl]

theorem objFails_name (s : String) : ObjFails (.name s) :=
  objFails_of_encFails _ rfl (encFails_name s)

/-- `Dict.encode` over an always-failing writer: the `<<` write fails
silently; an empty dict then returns nil with the error recorded, and a
non-empty one fails on its first key. -/
theorem encFails_dict (es : List (String × Object)) : EncFails (.dict es) := by
  intro e l stk b hb hl hs
  obtain ⟨stk₁, b₁, hw, hok₁, hb₁, hlen₁, hhead⟩ :=
    wWrite_allFail (l :: stk) b "<<" e hb (okStk_cons hl hs)
  obtain ⟨rest₁, hr₁⟩ := hhead l stk rfl
  subst hr₁
  have hrest₁ : okStk e rest₁ := fun x hx => hok₁ x (List.mem_cons_of_mem _ hx)
  have hlen₁' : rest₁.length = stk.length := by simpa using hlen₁
  cases es with
  | nil =>
    refine ⟨⟨some e, l.nextName, l.names⟩, rest₁, b₁, none, ?_, Or.inr ⟨rfl, rfl⟩,
      Or.inr rfl, hrest₁, hb₁, hlen₁'⟩
    simp only [encode, hw, encodeEntries,
      @wWrite_stuck ⟨some e, l.nextName, l.names⟩ e rest₁ b₁ "\n>>" rfl]
  | cons p rest =>
    obtain ⟨k, v⟩ := p
    obtain ⟨stk₂, b₂, hkey, hok₂, hb₂, hlen₂⟩ :=
      objFails_name k e ((⟨some e, l.nextName, l.names⟩ : Level) :: rest₁) b₁ hb₁
        (okStk_cons (Or.inr rfl) hrest₁)
    cases stk₂ with
    | nil => simp at hlen₂
    | cons l₂ stk₂' =>
      refine ⟨l₂, stk₂', b₂, some e, ?_, Or.inl rfl,
        hok₂ l₂ (List.mem_cons_self _ _),
        fun x hx => hok₂ x (List.mem_cons_of_mem _ hx), hb₂, ?_⟩
      · simp only [encode, hw, encodeEntries,
          @wWrite_stuck ⟨some e, l.nextName, l.names⟩ e rest₁ b₁ "\n" rfl, hkey]
      · simpa [hlen₁'] using hlen₂

theorem objFails_dict (es : List (String × Object)) : ObjFails (.dict es) :=
  objFails_of_encFails _ rfl (encFails_dict es)

/-- Every non-nil variant's `encode` fails over an always-failing writer:
either it returns the error, or it returns nil with the error recorded in
its own state. -/
theorem encFails (obj : Object) (hnn : obj.isNull = false) : EncFails obj := by
  cases obj with
  | null => simp [Object.isNull] at hnn
  | name s => exact encFails_name s
  | dict es => exact encFails_dict es
  | boolean v =>
    intro e l stk b hb hl hs
    obtain ⟨stk₁, b₁, hw, hok₁, hb₁, hlen₁, hhead⟩ :=
      wWrite_allFail (l :: stk) b (if v then "true" else "false") e hb (okStk_cons hl hs)
    obtain ⟨rest₁, hr₁⟩ := hhead l stk rfl
    subst hr₁
    refine ⟨⟨some e, l.nextName, l.names⟩, rest₁, b₁, some e, ?_, Or.inl rfl,
      Or.inr rfl, fun x hx => hok₁ x (List.mem_cons_of_mem _ hx), hb₁,
      by simpa using hlen₁⟩
    simp only [encode, hw]
  | integer i =>
    intro e l stk b hb hl hs
    obtain ⟨stk₁, b₁, hw, hok₁, hb₁, hlen₁, hhead⟩ :=
      wWrite_allFail (l :: stk) b (intDec i) e hb (okStk_cons hl hs)
    obtain ⟨rest₁, hr₁⟩ := hhead l stk rfl
    subst hr₁
    refine ⟨⟨some e, l.nextName, l.names⟩, rest₁, b₁, some e, ?_, Or.inl rfl,
      Or.inr rfl, fun x hx => hok₁ x (List.mem_cons_of_mem _ hx), hb₁,
      by simpa using hlen₁⟩
    simp only [encode, hw]
  | hexString bs =>
    intro e l stk b hb hl hs
    obtain ⟨stk₁, b₁, hw, hok₁, hb₁, hlen₁, hhead⟩ :=
      wWrite_allFail (l :: stk) b (hexStr bs) e hb (okStk_cons hl hs)
    obtain ⟨rest₁, hr₁⟩ := hhead l stk rfl
    subst hr₁
    refine ⟨⟨some e, l.nextName, l.names⟩, rest₁, b₁, some e, ?_, Or.inl rfl,
      Or.inr rfl, fun x hx => hok₁ x (List.mem_cons_of_mem _ hx), hb₁,
      by simpa using hlen₁⟩
    simp only [encode, hw]
  | literalString s =>
    intro e l stk b hb hl hs
    obtain ⟨stk₁, b₁, hw, hok₁, hb₁, hlen₁, hhead⟩ :=
      wWrite_allFail (l :: stk) b "(" e hb (okStk_cons hl hs)
    obtain ⟨rest₁, hr₁⟩ := hhead l stk rfl
    subst hr₁
    refine ⟨⟨some e, l.nextName, l.names⟩, rest₁, b₁, none, ?_, Or.inr ⟨rfl, rfl⟩,
      Or.inr rfl, fun x hx => hok₁ x (List.mem_cons_of_mem _ hx), hb₁,
      by simpa using hlen₁⟩
    simp only [encode, hw,
      @wWrite_stuck ⟨some e, l.nextName, l.names⟩ e rest₁ b₁ (litEsc s) rfl,
      @wWrite_stuck ⟨some e, l.nextName, l.names⟩ e rest₁ b₁ ")" rfl]
  | array xs =>
    intro e l stk b hb hl hs
    obtain ⟨stk₁, b₁, hw, hok₁, hb₁, hlen₁, hhead⟩ :=
      wWrite_allFail (l :: stk) b "[" e hb (okStk_cons hl hs)
    obtain ⟨rest₁, hr₁⟩ := hhead l stk rfl
    subst hr₁
    have hrest₁ : okStk e rest₁ := fun x hx => hok₁ x (List.mem_cons_of_mem _ hx)
    cases xs with
    | nil =>
      refine ⟨⟨some e, l.nextName, l.names⟩, rest₁, b₁, none, ?_, Or.inr ⟨rfl, rfl⟩,
        Or.inr rfl, hrest₁, hb₁, by simpa using hlen₁⟩
      simp only [encode, hw, encodeElems,
        @wWrite_stuck ⟨some e, l.nextName, l.names⟩ e rest₁ b₁ "]" rfl]
    | cons x rest =>
      refine ⟨⟨some e, l.nextName, l.names⟩, rest₁, b₁, some e, ?_, Or.inl rfl,
        Or.inr rfl, hrest₁, hb₁, by simpa using hlen₁⟩
      simp only [encode, hw, encodeElems,
        @wWrite_stuck ⟨some e, l.nextName, l.names⟩ e rest₁ b₁ "" rfl]
  | stream len data =>
    intro e l stk b hb hl hs
    obtain ⟨stk₂, b₂, hrun, hok₂, hb₂, hlen₂⟩ :=
      objFails_dict [("Length", .integer len)] e (l :: stk) b hb (okStk_cons hl hs)
    cases stk₂ with
    | nil => simp at hlen₂
    | cons l₂ stk₂' =>
      refine ⟨l₂, stk₂', b₂, some e, ?_, Or.inl rfl,
        hok₂ l₂ (List.mem_cons_self _ _),
        fun x hx => hok₂ x (List.mem_cons_of_mem _ hx), hb₂, by simpa using hlen₂⟩
      simp only [encode, hrun]
  | indirect nm o =>
    intro e l stk b hb hl hs
    rcases hfind : findId l.names nm with _ | nid
    · obtain ⟨stk₁, b₁, hw, hok₁, hb₁, hlen₁, hhead⟩ :=
        wWrite_allFail
          ((⟨l.err, l.nextName + 1, l.names ++ [(nm, l.nextName)]⟩ : Level) :: stk) b
          (intDec l.nextName) e hb (okStk_cons hl hs)
      obtain ⟨rest₁, hr₁⟩ :=
        hhead ⟨l.err, l.nextName + 1, l.names ++ [(nm, l.nextName)]⟩ stk rfl
      subst hr₁
      refine ⟨⟨some e, l.nextName + 1, l.names ++ [(nm, l.nextName)]⟩, rest₁, b₁,
        some e, ?_, Or.inl rfl, Or.inr rfl,
        fun x hx => hok₁ x (List.mem_cons_of_mem _ hx), hb₁, by simpa using hlen₁⟩
      simp only [encode, objName, hfind, hw]
    · obtain ⟨stk₁, b₁, hw, hok₁, hb₁, hlen₁, hhead⟩ :=
        wWrite_allFail (l :: stk) b (intDec nid) e hb (okStk_cons hl hs)
      obtain ⟨rest₁, hr₁⟩ := hhead l stk rfl
      subst hr₁
      refine ⟨⟨some e, l.nextName, l.names⟩, rest₁, b₁, some e, ?_, Or.inl rfl,
        Or.inr rfl, fun x hx => hok₁ x (List.mem_cons_of_mem _ hx), hb₁,
        by simpa using hlen₁⟩
      simp only [encode, objName, hfind, hw]
  | reference nm =>
    intro e l stk b hb hl hs
    rcases hfind : findId l.names nm with _ | nid
    · obtain ⟨stk₁, b₁, hw, hok₁, hb₁, hlen₁, hhead⟩ :=
        wWrite_allFail
          ((⟨l.err, l.nextName + 1, l.names ++ [(nm, l.nextName)]⟩ : Level) :: stk) b
          (intDec l.nextName) e hb (okStk_cons hl hs)
      obtain ⟨rest₁, hr₁⟩ :=
        hhead ⟨l.err, l.nextName + 1, l.names ++ [(nm, l.nextName)]⟩ stk rfl
      subst hr₁
      refine ⟨⟨some e, l.nextName + 1, l.names ++ [(nm, l.nextName)]⟩, rest₁, b₁,
        some e, ?_, Or.inl rfl, Or.inr rfl,
        fun x hx => hok₁ x (List.mem_cons_of_mem _ hx), hb₁, by simpa using hlen₁⟩
      simp only [encode, objName, hfind, hw]
    · obtain ⟨stk₁, b₁, hw, hok₁, hb₁, hlen₁, hhead⟩ :=
        wWrite_allFail (l :: stk) b (intDec nid) e hb (okStk_cons hl hs)
      obtain ⟨rest₁, hr₁⟩ := hhead l stk rfl
      subst hr₁
      refine ⟨⟨some e, l.nextName, l.names⟩, rest₁, b₁, some e, ?_, Or.inl rfl,
        Or.inr rfl, fun x hx => hok₁ x (List.mem_cons_of_mem _ hx), hb₁,
        by simpa using hlen₁⟩
      simp only [encode, objName, hfind, hw]

/-- `EncodeObject` over an always-failing writer returns the write error for
every object. -/
theorem objFails (obj : Object) : ObjFails obj := by
  cases hn : obj.isNull with
  | true =>
    cases obj <;> simp [Object.isNull] at hn
    exact objFails_null
  | false => exact objFails_of_encFails obj hn (encFails obj hn)

/-! ### Document-level `Encode` runs -/

/-- Concatenated output of the document body, object by object. -/
def bodyOut : List (String × Object) → String
  | [] => ""
  | (nm, ob) :: rest => encOut (.indirect nm ob) ++ bodyOut rest

theorem encodeBody_run : ∀ (body : List (String × Object)) (o : String) (c : Nat),
    (∀ p ∈ body, encErr (.indirect p.1 p.2) = none) →
    ∃ κ, encodeBody body ⟨o, c, noOrc⟩ =
      (⟨o ++ (bodyOut body ++ "%%EOF"), c + κ, noOrc⟩, none) := by
  intro body
  induction body with
  | nil =>
    intro o c _
    exact ⟨1, by simp [encodeBody, baseWrite, noOrc, bodyOut]⟩
  | cons p rest ih =>
    obtain ⟨nm, ob⟩ := p
    intro o c hall
    obtain ⟨κs, hs⟩ := ih (o ++ encOut (.indirect nm ob))
      (c + encCnt (.indirect nm ob)) (fun q hq => hall q (List.mem_cons_of_mem _ hq))
    refine ⟨encCnt (.indirect nm ob) + κs, ?_⟩
    simp only [encodeBody]
    simp [EncodeObject_run _ [] o c cleanStk_nil,
      hall (nm, ob) (List.mem_cons_self _ _), hs, bodyOut, String.append_assoc,
      Nat.add_assoc]

theorem encodeBody_err : ∀ (pre : List (String × Object)) (nm : String)
    (ob : Object) (rest : List (String × Object)) (e : Err) (o : String) (c : Nat),
    (∀ p ∈ pre, encErr (.indirect p.1 p.2) = none) →
    encErr (.indirect nm ob) = some e →
    (encodeBody (pre ++ (nm, ob) :: rest) ⟨o, c, noOrc⟩).2 = some e := by
  intro pre
  induction pre with
  | nil =>
    intro nm ob rest e o c _ herr
    simp only [List.nil_append, encodeBody]
    simp [EncodeObject_run _ [] o c cleanStk_nil, herr]
  | cons p pre' ih =>
    obtain ⟨nm', ob'⟩ := p
    intro nm ob rest e o c hall herr
    simp only [List.cons_append, encodeBody]
    simp [EncodeObject_run _ [] o c cleanStk_nil,
      hall (nm', ob') (List.mem_cons_self _ _),
      ih nm ob rest e _ _ (fun q hq => hall q (List.mem_cons_of_mem _ hq)) herr]

/-- An `Indirect` wrapping a boolean renders with object id 0 (fresh name
table) over a fresh never-failing writer. -/
theorem run_indirect_bool (nm : String) (v : Bool) :
    EncodeObject [] base0 (.indirect nm (.boolean v)) =
      ([], ⟨"0 0 obj\n" ++ ((if v then "true" else "false") ++ "\nendobj\n"), 4,
        noOrc⟩, none) := by
  have hc2 : cleanStk [(⟨none, 1, [(nm, 0)]⟩ : Level)] := cleanStk_cons rfl cleanStk_nil
  rw [show (base0 : Base) = ⟨"", 0, noOrc⟩ from rfl, EncodeObject]
  simp only [Object.isNull, Bool.false_eq_true, if_false, encode, objName, freshLevel,
    findId]
  simp [wWrite_cleanN, hc2, intDec_zero, String.append_assoc]

theorem encErr_indirect_bool (nm : String) (v : Bool) :
    encErr (.indirect nm (.boolean v)) = none := by
  simp [encErr, run_indirect_bool]

theorem encOut_indirect_bool (nm : String) (v : Bool) :
    encOut (.indirect nm (.boolean v)) =
      "0 0 obj\n" ++ ((if v then "true" else "false") ++ "\nendobj\n") := by
  simp [encOut, run_indirect_bool]

/-! ### Hex digits and printable names -/

theorem hexDig_range (n : Nat) (h : n < 16) :
    ('0' ≤ hexDig n ∧ hexDig n ≤ '9') ∨ ('A' ≤ hexDig n ∧ hexDig n ≤ 'F') := by
  interval_cases n <;> simp [hexDig] <;> decide

theorem byteHex_length (b : Nat) : (byteHex b).length = 2 := rfl

theorem hexJoin_length : ∀ bs : List Nat, (hexJoin bs).length = 2 * bs.length := by
  intro bs
  induction bs with
  | nil => rfl
  | cons b rest ih =>
    simp [hexJoin, String.length_append, byteHex_length, ih]
    omega

theorem hexJoin_mem : ∀ (bs : List Nat), (∀ b ∈ bs, b < 256) →
    ∀ ch ∈ (hexJoin bs).data,
      ('0' ≤ ch ∧ ch ≤ '9') ∨ ('A' ≤ ch ∧ ch ≤ 'F') := by
  intro bs
  induction bs with
  | nil =>
    intro _ ch hch
    simp [hexJoin] at hch
  | cons b rest ih =>
    intro hall ch hch
    have hb : b < 256 := hall b (List.mem_cons_self _ _)
    rw [hexJoin, String.data_append] at hch
    rcases List.mem_append.mp hch with h | h
    · have : ch = hexDig (b / 16) ∨ ch = hexDig (b % 16) := by
        simpa [byteHex] using h
      rcases this with rfl | rfl
      · exact hexDig_range _ (by omega)
      · exact hexDig_range _ (by omega)
    · exact ih (fun x hx => hall x (List.mem_cons_of_mem _ hx)) ch h

/-- For printable runes other than `#`, `escName` passes the rune through;
for `#` it yields `#23`. -/
theorem nmOut_printable : ∀ (cs : List Char), (∀ c ∈ cs, '!' ≤ c ∧ c ≤ '~') →
    nmOut cs = ⟨(cs.map fun c => if c = '#' then ['#', '2', '3'] else [c]).flatten⟩ := by
  intro cs
  induction cs with
  | nil => intro _; rfl
  | cons c rest ih =>
    intro hall
    have hc := hall c (List.mem_cons_self _ _)
    have hin : ¬ (c < '!' ∨ '~' < c) := by
      push_neg
      exact ⟨hc.1, hc.2⟩
    have ihr := ih (fun x hx => hall x (List.mem_cons_of_mem _ hx))
    simp only [nmOut, List.map_cons, List.flatten_cons] at ihr ⊢
    rw [show (⟨escName c ++ (rest.map escName).flatten⟩ : String) =
        (⟨escName c⟩ : String) ++ ⟨(rest.map escName).flatten⟩ from rfl]
    rw [show (⟨(if c = '#' then ['#', '2', '3'] else [c]) ++
        (rest.map fun x => if x = '#' then ['#', '2', '3'] else [x]).flatten⟩ : String) =
        (⟨if c = '#' then ['#', '2', '3'] else [c]⟩ : String) ++
          ⟨(rest.map fun x => if x = '#' then ['#', '2', '3'] else [x]).flatten⟩ from rfl]
    rw [ihr]
    congr 1
    simp [escName, hin]

theorem flatten_singletons : ∀ (cs : List Char), (cs.map fun c => [c]).flatten = cs := by
  intro cs
  induction cs with
  | nil => rfl
  | cons c rest ih => simp [ih]

/-- `pdf.Encode` success path: version header, each body object in order,
end-of-file marker. -/
theorem Encode_run (body : List (String × Object))
    (h : ∀ p ∈ body, encErr (.indirect p.1 p.2) = none) :
    ∃ κ, Encode base0 body =
      (⟨"%PDF-1.7\n" ++ (bodyOut body ++ "%%EOF"), κ, noOrc⟩, none) := by
  obtain ⟨κ, hb⟩ := encodeBody_run body "%PDF-1.7\n" 1 h
  refine ⟨1 + κ, ?_⟩
  simp only [Encode]
  simp [baseWrite, noOrc, base0, hb, Nat.add_assoc]

/-! ### Claims -/

/-- C1: evaluation of the code at the failing input.  The claim states that
within one top-level encode pass every distinct name maps to one id in
first-encountered order (`A` to 0, `B` to 1), including for references
nested inside arrays and across successive top-level objects of a document
encode.  The code instead creates a fresh `encodeState` (with an empty name
table) for every nested and every top-level `EncodeObject` call, so both
distinct names receive id 0: the array of two distinct references renders as
`[0 0 R 0 0 R]`, and a two-object document numbers both indirect objects 0. -/
theorem claim_C1_eval :
    encOut (.array [.reference "A", .reference "B"]) = "[0 0 R 0 0 R]" ∧
    (Encode base0 [("A", .boolean true), ("B", .boolean false)]).1.out =
      "%PDF-1.7\n0 0 obj\ntrue\nendobj\n0 0 obj\nfalse\nendobj\n%%EOF" := by
  constructor
  · rw [encOut_array _ (by
      intro x hx
      rcases List.mem_cons.mp hx with rfl | hx
      · exact encErr_reference _
      · rcases List.mem_cons.mp hx with rfl | hx
        · exact encErr_reference _
        · cases hx)]
    simp [joinSp, encOut_reference]
  · obtain ⟨κ, hr⟩ := Encode_run [("A", .boolean true), ("B", .boolean false)] (by
      intro p hp
      rcases List.mem_cons.mp hp with rfl | hp
      · exact encErr_indirect_bool _ _
      · rcases List.mem_cons.mp hp with rfl | hp
        · exact encErr_indirect_bool _ _
        · cases hp)
    rw [hr]
    simp [bodyOut, encOut_indirect_bool]

/-- C2: once an encode context has recorded an error, each of
`Write`/`WriteString`/`WriteByte`/`WriteRune` is a no-op (state, stack and
underlying output unchanged) returning that first error, and `Close` returns
it without overwriting; moreover a failing underlying write records its
error (first-error-wins) while producing no output. -/
theorem claim_C2 (l : Level) (rest : List Level) (b : Base) (e : Err)
    (buf s : String) (c r : Char) (h : l.err = some e) :
    Write (l :: rest) b buf = (l :: rest, b, some e) ∧
    WriteString (l :: rest) b s = (l :: rest, b, some e) ∧
    WriteByte (l :: rest) b c = (l :: rest, b, some e) ∧
    WriteRune (l :: rest) b r = (l :: rest, b, some e) ∧
    Close l = (l, some e) ∧
    (∀ l₀ : Level, l₀.err = none → ∀ e' : Err, b.oracle b.cnt = some e' →
      Write [l₀] b buf =
        ([⟨some e', l₀.nextName, l₀.names⟩], ⟨b.out, b.cnt + 1, b.oracle⟩, some e')) := by
  refine ⟨wWrite_stuck rest b buf h, wWrite_stuck rest b s h,
    wWrite_stuck rest b _ h, wWrite_stuck rest b _ h, by simp [Close, h], ?_⟩
  intro l₀ hl₀ e' he'
  simp [Write, wWrite, hl₀, baseWrite, he']

theorem claim_C2_witness :
    Write [⟨some (.ioErr 7), 4, [("A", 0)]⟩] base0 "x" =
        ([⟨some (.ioErr 7), 4, [("A", 0)]⟩], base0, some (.ioErr 7)) ∧
    WriteString [⟨some (.ioErr 7), 4, [("A", 0)]⟩] base0 "y" =
        ([⟨some (.ioErr 7), 4, [("A", 0)]⟩], base0, some (.ioErr 7)) ∧
    WriteByte [⟨some (.ioErr 7), 4, [("A", 0)]⟩] base0 'a' =
        ([⟨some (.ioErr 7), 4, [("A", 0)]⟩], base0, some (.ioErr 7)) ∧
    WriteRune [⟨some (.ioErr 7), 4, [("A", 0)]⟩] base0 'b' =
        ([⟨some (.ioErr 7), 4, [("A", 0)]⟩], base0, some (.ioErr 7)) ∧
    Close ⟨some (.ioErr 7), 4, [("A", 0)]⟩ =
        (⟨some (.ioErr 7), 4, [("A", 0)]⟩, some (.ioErr 7)) ∧
    (∀ l₀ : Level, l₀.err = none → ∀ e' : Err, base0.oracle base0.cnt = some e' →
      Write [l₀] base0 "x" =
        ([⟨some e', l₀.nextName, l₀.names⟩],
          ⟨base0.out, base0.cnt + 1, base0.oracle⟩, some e')) :=
  claim_C2 ⟨some (.ioErr 7), 4, [("A", 0)]⟩ [] base0 (.ioErr 7) "x" "y" 'a' 'b' rfl

/-- C3: a stream of declared length N renders its one-entry length
dictionary, the `stream` marker, exactly the first N source bytes verbatim
and the `endstream` marker when the source provides at least N bytes; with a
shorter source it stops after the available bytes with the distinct
truncation error (`io.EOF` from `io.CopyN`; the spec's `TruncatedStream`)
and no `endstream` marker is written. -/
theorem claim_C3 (N : Nat) (data : String) :
    (N ≤ data.length →
      encOut (.stream (N : Int) data) =
        "<<\n/Length " ++ (natDec N ++ "\n>>") ++
          ("\nstream\n" ++ (data.take N ++ "\nendstream\n")) ∧
      encErr (.stream (N : Int) data) = none) ∧
    (data.length < N →
      encOut (.stream (N : Int) data) =
        "<<\n/Length " ++ (natDec N ++ "\n>>") ++ ("\nstream\n" ++ data) ∧
      encErr (.stream (N : Int) data) = some .eof) := by
  constructor
  · intro hlen
    obtain ⟨κ, hr⟩ := run_stream_ok N data hlen
    rw [dictLen_out N] at hr
    constructor
    · simp [encOut, hr]
    · simp [encErr, hr]
  · intro hlen
    obtain ⟨κ, hr⟩ := run_stream_trunc N data hlen
    rw [dictLen_out N] at hr
    constructor
    · simp [encOut, hr]
    · simp [encErr, hr]

theorem claim_C3_witness :
    (2 ≤ "ab".length ∧
      encOut (.stream ((2 : Nat) : Int) "ab") =
        "<<\n/Length " ++ (natDec 2 ++ "\n>>") ++
          ("\nstream\n" ++ ("ab".take 2 ++ "\nendstream\n")) ∧
      encErr (.stream ((2 : Nat) : Int) "ab") = none) ∧
    ("a".length < 2 ∧
      encOut (.stream ((2 : Nat) : Int) "a") =
        "<<\n/Length " ++ (natDec 2 ++ "\n>>") ++ ("\nstream\n" ++ "a") ∧
      encErr (.stream ((2 : Nat) : Int) "a") = some .eof) :=
  ⟨⟨by decide, (claim_C3 2 "ab").1 (by decide)⟩,
    ⟨by decide, (claim_C3 2 "a").2 (by decide)⟩⟩

/-- C4, counterexample: the claim says every rune outside `'!'..'~'` is
rendered as `#` plus exactly two uppercase hex digits, which for the name
`"\n"` (code point 0x0A) would be `/#0A`; the code uses `%X` without zero
padding and renders `/#A`. -/
theorem claim_C4_counterexample :
    encOut (.name "\n") = "/#A" ∧ encOut (.name "\n") ≠ "/#0A" := by
  have h : encOut (.name "\n") = "/" ++ nmOut "\n".data := encOut_name _
  constructor
  · rw [h]; decide
  · rw [h]; decide

/-- C4, amended: in `render(Name(x))` every rune outside the printable-ASCII
range `'!'..'~'` is rendered as `#` followed by the minimal-width uppercase
hexadecimal digits of its code point (one digit below 0x10, two up to 0xFF,
more above; no zero padding), and `#` itself as `#23`, as `escName`
states. -/
theorem claim_C4 (s : String) : encOut (.name s) = "/" ++ nmOut s.data :=
  encOut_name s

/-- C5: `objName` on one encode context returns the stored id unchanged for
a present name and leaves the context untouched; for an absent name it
assigns `nextName`, appends the binding and increments the counter; on a
fresh context the first name receives id 0.  It is a total function of the
context alone, so it cannot fail, and both `Indirect.encode` and
`Reference.encode` resolve ids through this same function. -/
theorem claim_C5 (l : Level) (rest : List Level) (nm : String) :
    (∀ n, findId l.names nm = some n → objName (l :: rest) nm = (l :: rest, n)) ∧
    (findId l.names nm = none →
      objName (l :: rest) nm =
        ((⟨l.err, l.nextName + 1, l.names ++ [(nm, l.nextName)]⟩ : Level) :: rest,
          l.nextName)) ∧
    objName (freshLevel :: rest) nm = (⟨none, 1, [(nm, 0)]⟩ :: rest, 0) := by
  refine ⟨?_, ?_, ?_⟩
  · intro n hn
    simp [objName, hn]
  · intro hn
    simp [objName, hn]
  · simp [objName, freshLevel, findId]

theorem claim_C5_witness :
    objName [⟨none, 5, [("A", 3)]⟩] "A" = ([⟨none, 5, [("A", 3)]⟩], 3) ∧
    objName [⟨none, 5, [("A", 3)]⟩] "B" =
      ([⟨none, 6, [("A", 3), ("B", 5)]⟩], 5) ∧
    objName [freshLevel] "A" = ([⟨none, 1, [("A", 0)]⟩], 0) :=
  ⟨(claim_C5 ⟨none, 5, [("A", 3)]⟩ [] "A").1 3 (by decide),
    (claim_C5 ⟨none, 5, [("A", 3)]⟩ [] "B").2.1 (by decide),
    (claim_C5 ⟨none, 5, [("A", 3)]⟩ [] "A").2.2⟩

/-- C6: for names made only of printable-ASCII runes in `'!'..'~'`,
rendering is `/` followed by the name with each `#` replaced by `#23` and
every other rune passed through; with no `#` present the output is exactly
`/` plus the name. -/
theorem claim_C6 (s : String) :
    ((∀ c ∈ s.data, '!' ≤ c ∧ c ≤ '~') →
      encOut (.name s) =
        "/" ++ ⟨(s.data.map fun c => if c = '#' then ['#', '2', '3'] else [c]).flatten⟩) ∧
    ((∀ c ∈ s.data, ('!' ≤ c ∧ c ≤ '~') ∧ c ≠ '#') → encOut (.name s) = "/" ++ s) := by
  constructor
  · intro h
    rw [encOut_name, nmOut_printable s.data h]
  · intro h
    rw [encOut_name, nmOut_printable s.data (fun c hc => (h c hc).1)]
    congr 1
    have : (s.data.map fun c => if c = '#' then ['#', '2', '3'] else [c]) =
        s.data.map fun c => [c] := by
      apply List.map_congr_left
      intro c hc
      simp [(h c hc).2]
    rw [this, flatten_singletons]

theorem claim_C6_witness :
    ((∀ c ∈ "AB#C".data, '!' ≤ c ∧ c ≤ '~') ∧
      encOut (.name "AB#C") =
        "/" ++ ⟨("AB#C".data.map fun c => if c = '#' then ['#', '2', '3'] else [c]).flatten⟩) ∧
    ((∀ c ∈ "AB".data, ('!' ≤ c ∧ c ≤ '~') ∧ c ≠ '#') ∧
      encOut (.name "AB") = "/" ++ "AB") :=
  ⟨⟨by decide, (claim_C6 "AB#C").1 (by decide)⟩,
    ⟨by decide, (claim_C6 "AB").2 (by decide)⟩⟩

/-- C7: a hex string renders as `<`, exactly two uppercase hexadecimal
digits per input byte with no separators, then `>`; the total length is
`2*len(b)+2` and every character between the brackets is an uppercase hex
digit. -/
theorem claim_C7 (bs : List Nat) (h : ∀ b ∈ bs, b < 256) :
    encOut (.hexString bs) = "<" ++ (hexJoin bs ++ ">") ∧
    (encOut (.hexString bs)).length = 2 * bs.length + 2 ∧
    (∀ ch ∈ (hexJoin bs).data, ('0' ≤ ch ∧ ch ≤ '9') ∨ ('A' ≤ ch ∧ ch ≤ 'F')) := by
  refine ⟨?_, ?_, hexJoin_mem bs h⟩
  · rw [encOut_hexString]
    simp [hexStr, String.append_assoc]
  · rw [encOut_hexString]
    have h1 : ("<" : String).length = 1 := rfl
    have h2 : (">" : String).length = 1 := rfl
    simp [hexStr, String.length_append, hexJoin_length, h1, h2]
    omega

theorem claim_C7_witness :
    (∀ b ∈ [0, 15, 255], b < 256) ∧
    encOut (.hexString [0, 15, 255]) = "<" ++ (hexJoin [0, 15, 255] ++ ">") ∧
    (encOut (.hexString [0, 15, 255])).length = 2 * [0, 15, 255].length + 2 ∧
    (∀ ch ∈ (hexJoin [0, 15, 255]).data,
      ('0' ≤ ch ∧ ch ≤ '9') ∨ ('A' ≤ ch ∧ ch ≤ 'F')) :=
  ⟨by decide, claim_C7 [0, 15, 255] (by decide)⟩

/-- C8: the empty array renders exactly as `[]` and the empty dict as
`<<`, newline, `>>`; for any array whose elements all render without error,
the rendered elements appear separated by exactly one space with no space
after `[` or before `]`. -/
theorem claim_C8 :
    encOut (.array []) = "[]" ∧ encOut (.dict []) = "<<\n>>" ∧
    ∀ xs : List Object, (∀ x ∈ xs, encErr x = none) →
      encOut (.array xs) = "[" ++ (sepSpace (xs.map encOut) ++ "]") := by
  refine ⟨?_, ?_, ?_⟩
  · rw [encOut_array [] (by intro x hx; cases hx)]
    simp [joinSp]
  · rw [encOut_dict [] (by intro p hp; cases hp)]
    simp [entriesOut]
  · intro xs h
    rw [encOut_array xs h]
    cases xs with
    | nil => simp [joinSp, sepSpace]
    | cons x rest => rw [joinSp_cons_sep, str_empty_append]

theorem claim_C8_witness :
    (∀ x ∈ [Object.boolean true, Object.integer 7], encErr x = none) ∧
    encOut (.array [Object.boolean true, Object.integer 7]) =
      "[" ++ (sepSpace ([Object.boolean true, Object.integer 7].map encOut) ++ "]") := by
  have h : ∀ x ∈ [Object.boolean true, Object.integer 7], encErr x = none := by
    intro x hx
    rcases List.mem_cons.mp hx with rfl | hx
    · exact encErr_boolean _
    · rcases List.mem_cons.mp hx with rfl | hx
      · exact encErr_integer _
      · cases hx
  exact ⟨h, claim_C8.2.2 _ h⟩

/-- C9: document-level `Encode` writes the one-line `%PDF-1.7` header, then
each `Indirect` of the body in order through `EncodeObject`, then the
`%%EOF` marker; a failing header write, a failing object encode, and a
failing marker write are each returned to the caller.  (The header
destination `bw` is undefined in the source; modelled from the spec as the
output writer.) -/
theorem claim_C9 :
    (∀ body : List (String × Object),
      (∀ p ∈ body, encErr (.indirect p.1 p.2) = none) →
      ∃ κ, Encode base0 body =
        (⟨"%PDF-1.7\n" ++ (bodyOut body ++ "%%EOF"), κ, noOrc⟩, none)) ∧
    (∀ (e : Err) (b : Base) (body : List (String × Object)), AllFail e b →
      Encode b body = (⟨b.out, b.cnt + 1, b.oracle⟩, some e)) ∧
    (∀ (pre : List (String × Object)) (nm : String) (ob : Object)
      (rest : List (String × Object)) (e : Err),
      (∀ p ∈ pre, encErr (.indirect p.1 p.2) = none) →
      encErr (.indirect nm ob) = some e →
      (Encode base0 (pre ++ (nm, ob) :: rest)).2 = some e) ∧
    (∀ e : Err, Encode ⟨"", 0, fun k => if k = 0 then none else some e⟩ [] =
      (⟨"%PDF-1.7\n", 2, fun k => if k = 0 then none else some e⟩, some e)) := by
  refine ⟨Encode_run, ?_, ?_, ?_⟩
  · intro e b body hb
    simp [Encode, baseWrite, hb b.cnt]
  · intro pre nm ob rest e hpre herr
    have hbody := encodeBody_err pre nm ob rest e "%PDF-1.7\n" 1 hpre herr
    simp only [Encode]
    simp [baseWrite, noOrc, base0]
    convert hbody using 2
  · intro e
    simp [Encode, encodeBody, baseWrite]

theorem claim_C9_witness :
    (∀ p ∈ [("A", Object.boolean true)], encErr (.indirect p.1 p.2) = none) ∧
    (∃ κ, Encode base0 [("A", Object.boolean true)] =
      (⟨"%PDF-1.7\n" ++ (bodyOut [("A", Object.boolean true)] ++ "%%EOF"), κ,
        noOrc⟩, none)) ∧
    Encode ⟨"", 0, fun _ => some (.ioErr 9)⟩ [("A", Object.boolean true)] =
      (⟨"", 1, fun _ => some (.ioErr 9)⟩, some (.ioErr 9)) := by
  have h : ∀ p ∈ [("A", Object.boolean true)], encErr (.indirect p.1 p.2) = none := by
    intro p hp
    rcases List.mem_cons.mp hp with rfl | hp
    · exact encErr_indirect_bool _ _
    · cases hp
  exact ⟨h, claim_C9.1 _ h,
    claim_C9.2.1 (.ioErr 9) ⟨"", 0, fun _ => some (.ioErr 9)⟩ _ (fun _ => rfl)⟩

/-- C10: if every write to the underlying output fails, `EncodeObject` of
any object returns the write error, even for variants whose `encode` method
itself returns nil after ignoring its write results (`LiteralString`, the
delimiter writes of `Array`/`Dict`): the failure is surfaced through the
context's recorded sticky error. -/
theorem claim_C10 (obj : Object) (e : Err) (stk : List Level) (b : Base)
    (hb : AllFail e b) (hs : okStk e stk) :
    (EncodeObject stk b obj).2.2 = some e := by
  obtain ⟨stk', b', heq, _⟩ := objFails obj e stk b hb hs
  simp [heq]

theorem claim_C10_witness :
    (EncodeObject [] ⟨"", 0, fun _ => some (.ioErr 3)⟩ (.literalString "x")).2.2 =
      some (.ioErr 3) :=
  claim_C10 (.literalString "x") (.ioErr 3) [] ⟨"", 0, fun _ => some (.ioErr 3)⟩
    (fun _ => rfl) (okStk_nil _)

end PWall
